import Mathlib

/-!
Verification development for the animepahe-dl repository.

The repository ships three evolving variants of the same downloader:
`src/pahe-dl.py` (the current variant), `src/v1/pahe-dl.py` and
`src/v2/pahe-dl.py`.  The definitions below are shallow embeddings of the
functions the claims are about, translated from the Python source:

* `isDubCurrent` / `isDubV1` — the dubbed-audio predicates of
  `_extract_download_links` (current variant and v1 variant);
* `buildLinks`, `variantRes`, `pickRes`, `selectKeyMain` — the
  download-option parsing and quality-selection logic of
  `_extract_download_links` in the current variant, and
  `buildLinksV2` / `selectResV2` for the v2 variant;
* `wait_for_token`, `runThrottle` — `RequestThrottler.wait_for_token` (v2);
* `get_browser`, `return_browser`, `runPool` — `BrowserPool` (v2);
* `fetchSeq` / `fetchedPages` (and the v2 forms) — the pagination loop of
  `fetch_episodes`;
* `pyIntParse`, `pyFloatParse`, `epNumV1`, `epNumV2` — the episode-number
  parsing (`int(ep['episode'])` vs `int(float(ep['episode']))`);
* `skipExisting` / `skipExistingV2` — the skip-if-present test of the
  download orchestrators;
* `v1Trace` / `v2Trace` — the file-system effects of `_download_file`;
* `selectNewestV1`, `waitCompleteV1` — `_wait_for_download_complete`
  (current variant) under a directory whose contents do not change.

Machine details that the claims do not touch (HTTP transport, HTML parsing
into element lists, logging) are abstracted into the inputs of these
functions; everything the claims quantify over is modelled explicitly.
-/

/-! ### Character and string helpers

Substring and suffix tests, written over `List Char` so that concrete
instances reduce by `decide`.  `strContains s pat` models Python's
`pat in s`, and `strEnds s suf` models `s.endswith(suf)`.
-/

/-- `leadMatch pat l` is true when `pat` is an initial segment of `l`. -/
def leadMatch : List Char → List Char → Bool
  | [], _ => true
  | _ :: _, [] => false
  | p :: ps, c :: cs => p == c && leadMatch ps cs

/-- `containsSeq pat l` is true when `pat` occurs contiguously in `l`. -/
def containsSeq (pat : List Char) : List Char → Bool
  | [] => pat.isEmpty
  | c :: cs => leadMatch pat (c :: cs) || containsSeq pat cs

/-- Python's `pat in s` on strings. -/
def strContains (s pat : String) : Bool := containsSeq pat.data s.data

/-- Python's `s.endswith(suf)`. -/
def strEnds (s suf : String) : Bool := leadMatch suf.data.reverse s.data.reverse

/-! ### Dubbed-audio predicates (C10)

`src/pahe-dl.py` line 244:
`is_dub = 'badge-warning' in str(link) and ('eng' in str(link) or 'chi' in str(link))`

`src/v1/pahe-dl.py` line 225 (no parentheses; Python's `and` binds tighter
than `or`):
`is_dub = 'badge-warning' in str(link) and 'eng' in str(link) or 'chi' in str(link)`

The anchor element is represented by its serialized form `str(link)`.
-/

/-- Dubbed-audio test of the current variant. -/
def isDubCurrent (link : String) : Bool :=
  strContains link "badge-warning" && (strContains link "eng" || strContains link "chi")

/-- Dubbed-audio test of the v1 variant; `&&` binds tighter than `||`,
matching Python's precedence of `and` over `or`. -/
def isDubV1 (link : String) : Bool :=
  strContains link "badge-warning" && strContains link "eng" || strContains link "chi"

/-! ### Quality selection (C1, C2)

`AnimeDownloader._extract_download_links` in `src/pahe-dl.py` parses the
download menu into the dict
`download_links[(resolution, is_dub)] = {'url': href, ...}` (anchors without
a parsable `<n>p` resolution or without an href are dropped before this
point, so the input below is the list of parsed anchors in menu order),
splits the keys into subbed/dubbed option lists, and picks the preferred
audio variant's exact quality match or the closest available quality, with
Python's `min` keeping the first minimizer.  The v2 variant
(`src/v2/pahe-dl.py` lines 494-521) keys the dict by resolution alone and
sorts the keys ascending before taking the closest quality.
-/

/-- One parsed anchor of the download menu: its resolution, its dubbed
flag, and its href. -/
structure DLink where
  res : Nat
  dub : Bool
  url : String
deriving DecidableEq, Repr

/-- Python dict assignment `d[k] = v`: replace the value in place if the
key is present (keeping the key's original position), else append. -/
def updateKey {κ : Type} [DecidableEq κ] (k : κ) (v : String) :
    List (κ × String) → List (κ × String)
  | [] => [(k, v)]
  | e :: es => if e.1 = k then (k, v) :: es else e :: updateKey k v es

/-- The `download_links` dict of the current variant, keyed by
`(resolution, is_dub)`, built over the menu anchors in order. -/
def buildLinks (links : List DLink) : List ((Nat × Bool) × String) :=
  links.foldl (fun m l => updateKey (l.res, l.dub) l.url m) []

/-- `[r[0] for r in download_links.keys() if r[1] == d]` — the resolution
list of one audio variant, in key-insertion order. -/
def variantRes (links : List DLink) (d : Bool) : List Nat :=
  (((buildLinks links).map Prod.fst).filter (fun k => k.2 == d)).map Prod.fst

/-- `abs(x - quality_pref)` on resolutions. -/
def resDist (r q : Nat) : Nat := ((r : Int) - q).natAbs

/-- `min(resolutions, key=lambda x: abs(x - q))` starting from a current
best `b`: Python's `min` keeps the first element attaining the minimum. -/
def closestFrom (q b : Nat) : List Nat → Nat
  | [] => b
  | r :: rs => if resDist r q < resDist b q then closestFrom q r rs else closestFrom q b rs

/-- `min(resolutions, key=lambda x: abs(x - q))`; `none` on an empty list. -/
def closestRes (q : Nat) : List Nat → Option Nat
  | [] => none
  | r :: rs => some (closestFrom q r rs)

/-- `quality_pref if quality_pref in resolutions else min(resolutions, key=...)`. -/
def pickRes (q : Nat) (rs : List Nat) : Option Nat :=
  if q ∈ rs then some q else closestRes q rs

/-- The selected `(resolution, is_dub)` key of the current variant:
preferred audio variant first, fallback variant otherwise, `none` when
neither variant has any option (the function then returns `None`). -/
def selectKeyMain (q : Nat) (pd : Bool) (links : List DLink) : Option (Nat × Bool) :=
  if variantRes links pd = [] then
    if variantRes links (!pd) = [] then none
    else (pickRes q (variantRes links (!pd))).map (fun r => (r, !pd))
  else (pickRes q (variantRes links pd)).map (fun r => (r, pd))

/-- `download_links[selected_key]['url']` — the returned href. -/
def selectUrlMain (q : Nat) (pd : Bool) (links : List DLink) : Option String :=
  (selectKeyMain q pd links).bind
    (fun k => ((buildLinks links).find? (fun e => e.1 = k)).map Prod.snd)

/-- The audio variant the current variant actually selects from: the
preferred one when it has options, the other one otherwise. -/
def chosenDub (pd : Bool) (links : List DLink) : Bool :=
  if variantRes links pd = [] then !pd else pd

/-- The resolution set `R` of the chosen audio variant, in encounter order. -/
def chosenResList (pd : Bool) (links : List DLink) : List Nat :=
  variantRes links (chosenDub pd links)

/-- The v2 `download_links` dict, keyed by resolution alone. -/
def buildLinksV2 (ls : List (Nat × String)) : List (Nat × String) :=
  ls.foldl (fun m p => updateKey p.1 p.2 m) []

/-- The v2 dict's key list, in encounter order. -/
def v2keys (ls : List (Nat × String)) : List Nat := (buildLinksV2 ls).map Prod.fst

/-- The v2 variant's selected resolution: exact match, else
`min(sorted(download_links.keys()), key=lambda x: abs(x - q))` — note the
`sorted(...)`, which rearranges the candidates ascending before `min`. -/
def selectResV2 (q : Nat) (ls : List (Nat × String)) : Option Nat :=
  if v2keys ls = [] then none
  else if q ∈ v2keys ls then some q
  else closestRes q (List.insertionSort (· ≤ ·) (v2keys ls))

/-! ### Request throttler (C3)

`RequestThrottler` in `src/v2/pahe-dl.py` lines 53-80.  Times and token
counts are rationals.  One `wait_for_token` call observes the wall clock at
`a` (the moment it holds the lock), lazily refills the bucket, and either
consumes a token immediately or sleeps `(1 - tokens) / rate` seconds and
re-reads the clock; `slack` models the nonnegative overshoot of that final
`time.time()` call past the requested wake-up time.  In both branches the
new `last` field equals the moment the request is admitted.
-/

/-- `rate = requests_per_minute / 60.0`. -/
def throttleRate (rpm : ℚ) : ℚ := rpm / 60

/-- `{tokens, last_time}` of a `RequestThrottler`. -/
structure ThrottleState where
  tokens : ℚ
  last : ℚ
deriving DecidableEq, Repr

/-- One `wait_for_token` call, entered at wall-clock time `a`; the bucket
refills to `min cap (tokens + elapsed * rate)` before the branch. -/
def wait_for_token (cap rate : ℚ) (s : ThrottleState) (a slack : ℚ) : ThrottleState :=
  if min cap (s.tokens + (a - s.last) * rate) < 1 then
    { tokens := 0,
      last := a + (1 - min cap (s.tokens + (a - s.last) * rate)) / rate + slack }
  else
    { tokens := min cap (s.tokens + (a - s.last) * rate) - 1, last := a }

/-- Run a sequence of calls; the returned list holds the admission time of
each call (which is the `last` field the call leaves behind). -/
def runThrottle (cap rate : ℚ) (s : ThrottleState) : List (ℚ × ℚ) → List ℚ
  | [] => []
  | c :: rest =>
    let s' := wait_for_token cap rate s c.1 c.2
    s'.last :: runThrottle cap rate s' rest

/-- A call sequence is valid when each call enters at or after the
previous call's admission time (the lock serializes the calls and the wall
clock is monotone) and each sleep overshoot is nonnegative. -/
def validCalls (cap rate : ℚ) (s : ThrottleState) : List (ℚ × ℚ) → Bool
  | [] => true
  | c :: rest =>
    decide (s.last ≤ c.1) && decide (0 ≤ c.2) &&
      validCalls cap rate (wait_for_token cap rate s c.1 c.2) rest

/-- Number of admissions falling inside the closed window `[w, w + T]`. -/
def countWin (w T : ℚ) (l : List ℚ) : Nat :=
  l.countP (fun x => decide (w ≤ x ∧ x ≤ w + T))

/-- Upper bound, at a given throttler state, on how many future admissions
can still fall inside `[w, w + T]`: the bucket as it would stand at the
window's start (refilled from `last`, capped) plus the refill accumulated
across the remaining part of the window. -/
def windowBudget (cap rate w T : ℚ) (s : ThrottleState) : ℚ :=
  if w + T < s.last then 0
  else min cap (s.tokens + rate * (max s.last w - s.last)) + rate * (w + T - max s.last w)

/-! ### Browser pool (C4)

`BrowserPool` in `src/v2/pahe-dl.py` lines 82-134, as a sequential state
machine over acquisition/release operations.  Browser instances are
numbered by a creation counter.  `get_browser` hands out an idle instance
when one exists and otherwise creates a new one — the source rechecks only
the idle deque under `creation_lock`, never the total count.
`return_browser` removes the instance from the in-use set and re-idles it
only while the idle deque is shorter than `max_size`, closing it otherwise.
-/

/-- Pool state: the `available` deque, the `in_use` set (as a list), and
the id the next created browser will get. -/
structure PoolState where
  avail : List Nat
  inUse : List Nat
  next : Nat
deriving DecidableEq, Repr

/-- The pool as constructed: no browsers exist yet. -/
def initPool : PoolState := { avail := [], inUse := [], next := 0 }

/-- `BrowserPool.get_browser`. -/
def get_browser (s : PoolState) : PoolState :=
  match s.avail with
  | b :: rest => { avail := rest, inUse := s.inUse ++ [b], next := s.next }
  | [] => { avail := [], inUse := s.inUse ++ [s.next], next := s.next + 1 }

/-- `BrowserPool.return_browser`. -/
def return_browser (maxSize : Nat) (s : PoolState) (b : Nat) : PoolState :=
  let inUse := s.inUse.erase b
  if s.avail.length < maxSize then
    { avail := s.avail ++ [b], inUse := inUse, next := s.next }
  else
    { avail := s.avail, inUse := inUse, next := s.next }

/-- A pool operation: an acquisition, or the release of browser `b`. -/
inductive PoolOp where
  | get : PoolOp
  | ret : Nat → PoolOp
deriving DecidableEq, Repr

/-- Apply one operation. -/
def poolStep (maxSize : Nat) (s : PoolState) : PoolOp → PoolState
  | PoolOp.get => get_browser s
  | PoolOp.ret b => return_browser maxSize s b

/-- Run a sequence of operations from the freshly constructed pool. -/
def runPool (maxSize : Nat) (ops : List PoolOp) : PoolState :=
  ops.foldl (poolStep maxSize) initPool

/-- Browsers currently alive: idle ones plus in-use ones. -/
def aliveCount (s : PoolState) : Nat := s.avail.length + s.inUse.length

/-! ### Episode-list pagination (C5)

The page loop of `fetch_episodes`.  Current variant (`src/pahe-dl.py`
lines 190-210): fetch page, then `if page >= last_page: break` else
`page += 1`.  The v2 variant (`src/v2/pahe-dl.py` lines 381-412) checks
`page > last_page` at the top of the loop once `last_page` is known, and
always fetches page 1 first (before `last_page` is known).  Every page
reports the same `last_page = L` and every request succeeds.  The loops
are embedded with an explicit iteration budget (`fuel`); with `fuel = L`
the budget never runs out for `L ≥ 1`, which the theorems prove.
-/

/-- Current variant: fetch `page`; stop when `L ≤ page`, else continue
with `page + 1`. Returns the pages fetched, in request order. -/
def fetchSeq (L : Nat) (page : Nat) : Nat → List Nat
  | 0 => []
  | fuel + 1 => page :: (if L ≤ page then [] else fetchSeq L (page + 1) fuel)

/-- The pages the current variant's `fetch_episodes` requests when every
page reports `last_page = L`. -/
def fetchedPages (L : Nat) : List Nat := fetchSeq L 1 L

/-- v2 variant after page 1: stop before fetching when `last_page < page`. -/
def fetchSeqV2 (L : Nat) (page : Nat) : Nat → List Nat
  | 0 => []
  | fuel + 1 => if L < page then [] else page :: fetchSeqV2 L (page + 1) fuel

/-- The pages the v2 variant's `fetch_episodes` requests: page 1 is always
fetched (`last_page` still unknown), then the guarded loop. -/
def fetchedPagesV2 (L : Nat) : List Nat := 1 :: fetchSeqV2 L 2 L

/-! ### Episode-number parsing (C6)

Current variant, `src/pahe-dl.py` lines 200-205: `num = int(ep['episode'])`
inside `try/except ValueError: continue` — Python's `int()` on a string
accepts only an integer numeral, so `"13.5"` raises and the entry is
skipped.  v2 variant, `src/v2/pahe-dl.py` lines 401-406:
`ep_num = float(ep['episode']); int_ep_num = int(ep_num)` — parse as a
float, then truncate toward zero.  The episode field of the listing API is
a decimal numeral, so the parsers below cover unsigned decimal numerals
(digits, optionally with one decimal point).
-/

/-- ASCII digit test. -/
def isDigitC (c : Char) : Bool := 48 ≤ c.toNat && c.toNat ≤ 57

/-- All characters are ASCII digits. -/
def allDigits (l : List Char) : Bool := l.all isDigitC

/-- Numeric value of a digit character. -/
def digitVal (c : Char) : Nat := c.toNat - 48

/-- Value of a digit string, most significant digit first. -/
def digitsToNat (l : List Char) : Nat := l.foldl (fun acc c => 10 * acc + digitVal c) 0

/-- Python `int(s)` on an unsigned decimal numeral: defined only when `s`
is a nonempty all-digit string, `None` (a raised `ValueError`) otherwise. -/
def pyIntParse (s : String) : Option Nat :=
  if !s.data.isEmpty && allDigits s.data then some (digitsToNat s.data) else none

/-- Split a character list at its first `'.'`. -/
def breakAtDot : List Char → Option (List Char × List Char)
  | [] => none
  | c :: cs =>
    if c = '.' then some ([], cs)
    else (breakAtDot cs).map (fun p => (c :: p.1, p.2))

/-- Python `float(s)` on an unsigned decimal numeral (digits with at most
one decimal point, at least one digit overall), as an exact rational. -/
def pyFloatParse (s : String) : Option ℚ :=
  match breakAtDot s.data with
  | none =>
    if !s.data.isEmpty && allDigits s.data then some (digitsToNat s.data : ℚ) else none
  | some (ip, fp) =>
    if (!ip.isEmpty || !fp.isEmpty) && allDigits ip && allDigits fp then
      some ((digitsToNat ip : ℚ) + (digitsToNat fp : ℚ) / (10 : ℚ) ^ fp.length)
    else none

/-- Python `int(x)` on a float: truncation toward zero. -/
def pyTrunc (q : ℚ) : ℤ := if 0 ≤ q then ⌊q⌋ else -⌊-q⌋

/-- Episode number derived by the current variant: `int(ep['episode'])`. -/
def epNumV1 (s : String) : Option Nat := pyIntParse s

/-- Episode number derived by the v2 variant: `int(float(ep['episode']))`. -/
def epNumV2 (s : String) : Option Nat := (pyFloatParse s).map (fun q => (pyTrunc q).toNat)

/-! ### Skip-if-present test (C7)

The target's output file is `none` when absent and `some size` when
present.  Current variant, `src/pahe-dl.py` line 685:
`if os.path.exists(path): ... continue`.  v2 variant, `src/v2/pahe-dl.py`
line 921: `if os.path.exists(output_path) and os.path.getsize(output_path) > 0`.
-/

/-- `os.path.getsize` (0 when the file is absent; never reached then). -/
def fileSize : Option Nat → Nat
  | some n => n
  | none => 0

/-- The current variant's skip test: bare `os.path.exists(path)`. -/
def skipExisting (f : Option Nat) : Bool := f.isSome

/-- The v2 variant's skip test: exists and non-empty. -/
def skipExistingV2 (f : Option Nat) : Bool := f.isSome && decide (0 < fileSize f)

/-! ### Direct-stream download (C8)

`_download_file`.  The relevant file-system cells are the output path and
its temporary sibling (`output_path + '.part'`); a file's content is the
list of stream chunks written to it so far.  `chunks` is the full response
stream and `failAfter = some k` means an exception fires after `k` chunks
were written (`none` = the download runs to completion).  Each variant is
given as the sequence of file-system states it moves through, starting
from the initial state, plus its returned success flag.

Current variant (`src/pahe-dl.py` lines 522-574): opens `output_path`
itself for writing (truncating it), streams into it, and on the final
failed attempt deletes `output_path`.  v2 variant (`src/v2/pahe-dl.py`
lines 796-856): streams into the `.part` sibling, renames it onto
`output_path` on completion, and deletes the `.part` file on exception.
-/

/-- The two file-system cells `_download_file` can touch. -/
structure FS where
  target : Option (List Nat)
  temp : Option (List Nat)
deriving DecidableEq, Repr

/-- States passed through by the current variant's `_download_file`. -/
def v1Trace (fs : FS) (chunks : List Nat) (failAfter : Option Nat) : List FS :=
  match failAfter with
  | none =>
    fs :: (List.range (chunks.length + 1)).map (fun i => { fs with target := some (chunks.take i) })
  | some k =>
    (fs :: (List.range (k + 1)).map (fun i => { fs with target := some (chunks.take i) }))
      ++ [{ fs with target := none }]

/-- Return value of the current variant's `_download_file`. -/
def v1Result (failAfter : Option Nat) : Bool := failAfter.isNone

/-- States passed through by the v2 variant's `_download_file`. -/
def v2Trace (fs : FS) (chunks : List Nat) (failAfter : Option Nat) : List FS :=
  match failAfter with
  | none =>
    (fs :: (List.range (chunks.length + 1)).map (fun i => { fs with temp := some (chunks.take i) }))
      ++ [{ fs with temp := none, target := some chunks }]
  | some k =>
    (fs :: (List.range (k + 1)).map (fun i => { fs with temp := some (chunks.take i) }))
      ++ [{ fs with temp := none }]

/-- Return value of the v2 variant's `_download_file`. -/
def v2Result (failAfter : Option Nat) : Bool := failAfter.isNone

/-- Final file-system state of a trace. -/
def finalFS (fs : FS) (tr : List FS) : FS := tr.getLastD fs

/-! ### Download-completion detection (C9)

`_wait_for_download_complete` of the current variant (`src/pahe-dl.py`
lines 468-520) polls the download directory until timeout: while any
`.crdownload` is present it keeps waiting; otherwise it collects the
`.mp4`/`.mkv` files, drops the target filename itself, and if any
candidate remains renames the most recently modified one (Python's stable
descending sort keeps the first-listed file on mtime ties) onto the target
and returns `True`.  When no candidate remains it sleeps and rescans.  The
functions below give the outcome for a directory whose contents do not
change between scans — then every scan is identical, so the loop either
returns on its first scan or spins until the timeout returns `False`.
-/

/-- One directory entry: name, modification time, size in bytes. -/
structure FileEntry where
  name : String
  mtime : Nat
  size : Nat
deriving DecidableEq, Repr

/-- `f.endswith('.crdownload')`. -/
def isCrdownloadF (f : FileEntry) : Bool := strEnds f.name ".crdownload"

/-- `f.endswith(('.mp4', '.mkv'))`. -/
def isVideoF (f : FileEntry) : Bool := strEnds f.name ".mp4" || strEnds f.name ".mkv"

/-- `recent_files` of the scan: video files other than the target itself. -/
def candidatesV1 (files : List FileEntry) (target : String) : List FileEntry :=
  (files.filter isVideoF).filter (fun f => f.name != target)

/-- `recent_files.sort(key=mtime, reverse=True); recent_files[0]` — the
stable descending sort makes this the first entry attaining the maximal
mtime, found by a fold that replaces the best only on strict increase. -/
def newestFirst (b : FileEntry) : List FileEntry → FileEntry
  | [] => b
  | f :: fs => if b.mtime < f.mtime then newestFirst f fs else newestFirst b fs

/-- The file one scan would rename onto the target: `none` when the scan
reaches no `return` (no videos at all, or only the target itself). -/
def selectNewestV1 (files : List FileEntry) (target : String) : Option FileEntry :=
  if (files.filter isVideoF).isEmpty then none
  else
    match candidatesV1 files target with
    | [] => none
    | c :: cs => some (newestFirst c cs)

/-- Outcome of `_wait_for_download_complete` over an unchanging directory:
the returned flag and the name of the file renamed onto the target, if
any.  A pending `.crdownload`, or the absence of a candidate, makes every
scan sleep, so the loop ends at the timeout with `False`. -/
def waitCompleteV1 (files : List FileEntry) (target : String) : Bool × Option String :=
  if files.any isCrdownloadF then (false, none)
  else
    match selectNewestV1 files target with
    | some g => (true, some g.name)
    | none => (false, none)

/-! ## Theorems -/

/-- C10 counterexample: an anchor containing `chi` but neither
`badge-warning` nor `eng` is classified dubbed by the v1 predicate and
subbed by the current predicate, so the two predicates are not
equivalent. -/
theorem is_dub_precedence_cex :
    isDubV1 "<a class=dropdown-item href=x>Orochi · 720p BD</a>" = true ∧
    isDubCurrent "<a class=dropdown-item href=x>Orochi · 720p BD</a>" = false := by
  decide

/-- C10: exact relation between the two dubbed-audio predicates.  They
agree except on anchors that contain `chi` without `badge-warning`, where
the v1 variant (whose `and` binds tighter than its `or`) answers dubbed
and the current variant answers subbed. -/
theorem is_dub_variants_relation (link : String) :
    isDubV1 link =
      (isDubCurrent link || (strContains link "chi" && !strContains link "badge-warning")) := by
  cases hb : strContains link "badge-warning" <;>
    cases he : strContains link "eng" <;>
      cases hc : strContains link "chi" <;>
        simp [isDubV1, isDubCurrent, hb, he, hc]

/-- C7 counterexample: an existing zero-byte output file.  The current
variant's orchestrator skips it (bare `os.path.exists`), while the claim
requires such a target not to be skipped; the v2 orchestrator indeed does
not skip it. -/
theorem skip_empty_file_cex :
    skipExisting (some 0) = true ∧ skipExistingV2 (some 0) = false := by decide

/-- C7 amended: the v2 orchestrator skips exactly the targets whose output
file exists and is non-empty; the current variant's orchestrator skips
exactly the targets whose output file exists, regardless of size. -/
theorem skip_condition_characterization (f : Option Nat) :
    (skipExistingV2 f = true ↔ ∃ n, f = some n ∧ 0 < n) ∧
    (skipExisting f = true ↔ f ≠ none) := by
  cases f <;> simp [skipExisting, skipExistingV2, fileSize]

/-- C4 counterexample: with `max_size = 1`, two acquisitions with no
release leave two browsers alive — `get_browser` created a second instance
although one already existed, because it only rechecks the idle deque,
never the total count.  The creation counter confirms both operations
created an instance. -/
theorem pool_overflow_cex :
    aliveCount (runPool 1 [PoolOp.get, PoolOp.get]) = 2 ∧
    (runPool 1 [PoolOp.get, PoolOp.get]).next = 2 := by decide

/-- C4 amended: what `max_size` actually bounds is the idle deque —
`return_browser` re-idles an instance only while `len(available) <
max_size` — while the total number of alive instances is unbounded, since
`get_browser` creates whenever the idle deque is empty. -/
theorem pool_idle_bounded (m : Nat) (ops : List PoolOp) :
    (runPool m ops).avail.length ≤ m := by
  suffices h : ∀ s : PoolState, s.avail.length ≤ m →
      (ops.foldl (poolStep m) s).avail.length ≤ m by
    exact h initPool (by simp [initPool])
  induction ops with
  | nil => intro s hs; simpa using hs
  | cons op rest ih =>
    intro s hs
    refine ih _ ?_
    cases op with
    | get =>
      cases hav : s.avail with
      | nil => simp [poolStep, get_browser, hav]
      | cons b bs =>
        have := hs
        rw [hav] at this
        simp only [poolStep, get_browser, hav]
        simp at this ⊢
        omega
    | ret b =>
      simp only [poolStep, return_browser]
      split
      · next hlt => simp; omega
      · simpa using hs

/-- C5 helper: with enough fuel, the current variant's page loop requests
exactly the pages `page, page+1, ..., L`. -/
theorem fetchSeq_eq_range (L : Nat) :
    ∀ (fuel page : Nat), page ≤ L → L - page < fuel →
      fetchSeq L page fuel = List.range' page (L + 1 - page) := by
  intro fuel
  induction fuel with
  | zero => intro page _ h; omega
  | succ n ih =>
    intro page hpL h
    by_cases hLp : L ≤ page
    · have hpeq : page = L := le_antisymm hpL hLp
      subst hpeq
      have h1 : page + 1 - page = 1 := by omega
      simp [fetchSeq, h1, List.range']
    · push_neg at hLp
      have hrec := ih (page + 1) (by omega) (by omega)
      simp only [fetchSeq, if_neg (by omega : ¬ L ≤ page), hrec]
      have h1 : L + 1 - page = (L - page) + 1 := by omega
      have h2 : L + 1 - (page + 1) = L - page := by omega
      rw [h1, h2, List.range']

/-- C5 helper: the v2 page loop (after page 1) requests exactly the pages
`page, ..., L`, which is empty when `L < page`. -/
theorem fetchSeqV2_eq_range (L : Nat) :
    ∀ (fuel page : Nat), L < page + fuel →
      fetchSeqV2 L page fuel = List.range' page (L + 1 - page) := by
  intro fuel
  induction fuel with
  | zero =>
    intro page h
    have h1 : L + 1 - page = 0 := by omega
    simp [fetchSeqV2, h1, List.range']
  | succ n ih =>
    intro page h
    by_cases hLp : L < page
    · have h1 : L + 1 - page = 0 := by omega
      simp [fetchSeqV2, if_pos hLp, h1, List.range']
    · push_neg at hLp
      have hrec := ih (page + 1) (by omega)
      simp only [fetchSeqV2, if_neg (by omega : ¬ L < page), hrec]
      have h1 : L + 1 - page = (L - page) + 1 := by omega
      have h2 : L + 1 - (page + 1) = L - page := by omega
      rw [h1, h2, List.range']

/-- C5: when every page of the listing reports `last_page = L ≥ 1` and
every request succeeds, both variants of `fetch_episodes` request exactly
the pages `1, 2, ..., L` in order: `L` fetches, sequential from page 1,
and never a page beyond `L`. -/
theorem pagination_exact (L : Nat) (h : 1 ≤ L) :
    fetchedPages L = List.range' 1 L ∧
    fetchedPagesV2 L = List.range' 1 L ∧
    (fetchedPages L).length = L ∧
    ∀ p ∈ fetchedPages L, 1 ≤ p ∧ p ≤ L := by
  have h1 : fetchedPages L = List.range' 1 L := by
    have := fetchSeq_eq_range L L 1 h (by omega)
    simpa [fetchedPages] using this
  have h2 : fetchedPagesV2 L = List.range' 1 L := by
    obtain ⟨n, rfl⟩ : ∃ n, L = n + 1 := ⟨L - 1, by omega⟩
    rw [fetchedPagesV2, fetchSeqV2_eq_range (n + 1) (n + 1) 2 (by omega)]
    have he : n + 1 + 1 - 2 = n := by omega
    rw [he]
    rfl
  refine ⟨h1, h2, by simp [h1], ?_⟩
  intro p hp
  rw [h1, List.mem_range'_1] at hp
  omega

/-- C5 witness at `L = 3`: exactly the pages 1, 2, 3 are fetched. -/
theorem pagination_exact_witness :
    1 ≤ 3 ∧
      (fetchedPages 3 = List.range' 1 3 ∧
       fetchedPagesV2 3 = List.range' 1 3 ∧
       (fetchedPages 3).length = 3 ∧
       ∀ p ∈ fetchedPages 3, 1 ≤ p ∧ p ≤ 3) :=
  ⟨by decide, pagination_exact 3 (by decide)⟩

/-- C6 counterexample: for the raw episode value `"13.5"` the current
variant's `int(ep['episode'])` raises `ValueError` and the entry is
skipped (`none`), while the claim asserts it is included under the
truncated number; the v2 variant does truncate it to 13. -/
theorem fractional_episode_cex :
    epNumV1 "13.5" = none ∧ epNumV2 "13.5" = some 13 := by
  constructor
  · decide
  · have hb : breakAtDot "13.5".data = some (['1', '3'], ['5']) := by decide
    have hip : digitsToNat ['1', '3'] = 13 := by decide
    have hfp : digitsToNat ['5'] = 5 := by decide
    have hd1 : allDigits ['1', '3'] = true := by decide
    have hd2 : allDigits ['5'] = true := by decide
    have hpf : pyFloatParse "13.5" = some ((13 : ℚ) + (5 : ℚ) / (10 : ℚ) ^ (1 : ℕ)) := by
      simp [pyFloatParse, hb, hip, hfp, hd1, hd2]
    have hpf2 : pyFloatParse "13.5" = some ((27 : ℚ) / 2) := by
      rw [hpf]
      norm_num
    have htr : pyTrunc ((27 : ℚ) / 2) = 13 := by
      unfold pyTrunc
      norm_num
    simp [epNumV2, hpf2, htr]

/-- Helper for C6: a digit character contributes a value below 10. -/
theorem digitVal_lt (c : Char) (h : isDigitC c = true) : digitVal c < 10 := by
  simp only [isDigitC, Bool.and_eq_true, decide_eq_true_eq] at h
  simp only [digitVal]
  omega

/-- Helper for C6: the value of a digit string is below `10 ^ length`. -/
theorem digitsToNat_lt (l : List Char) (h : allDigits l = true) :
    digitsToNat l < 10 ^ l.length := by
  suffices hgen : ∀ acc, List.foldl (fun a c => 10 * a + digitVal c) acc l
      < (acc + 1) * 10 ^ l.length by
    simpa [digitsToNat] using hgen 0
  induction l with
  | nil => intro acc; simp
  | cons c cs ih =>
    intro acc
    simp only [allDigits, List.all_cons, Bool.and_eq_true] at h
    have hd : digitVal c < 10 := digitVal_lt c h.1
    have hrec := ih (by simp [allDigits, h.2]) (10 * acc + digitVal c)
    simp only [List.foldl_cons, List.length_cons]
    calc List.foldl (fun a c => 10 * a + digitVal c) (10 * acc + digitVal c) cs
        < (10 * acc + digitVal c + 1) * 10 ^ cs.length := hrec
      _ ≤ (acc + 1) * 10 ^ (cs.length + 1) := by
          have hstep : 10 * acc + digitVal c + 1 ≤ (acc + 1) * 10 := by omega
          calc (10 * acc + digitVal c + 1) * 10 ^ cs.length
              ≤ ((acc + 1) * 10) * 10 ^ cs.length := Nat.mul_le_mul_right _ hstep
            _ = (acc + 1) * 10 ^ (cs.length + 1) := by ring

/-- Helper for C6: `breakAtDot` splits at the dot that follows a dotless
first segment. -/
theorem breakAtDot_append (ip fp : List Char) (h : ∀ c ∈ ip, c ≠ '.') :
    breakAtDot (ip ++ '.' :: fp) = some (ip, fp) := by
  induction ip with
  | nil => simp [breakAtDot]
  | cons c cs ih =>
    have hc : c ≠ '.' := h c (List.mem_cons_self c cs)
    have hrec := ih (fun x hx => h x (List.mem_cons_of_mem c hx))
    simp [breakAtDot, hc, hrec]

/-- C6 amended: on a fractional decimal numeral `ip.fp` the v2 variant's
`int(float(...))` yields the truncated integer part, so the episode is
included under that number, while the current variant's `int(...)` raises
and the entry is skipped. -/
theorem fractional_episode_truncation (ip fp : List Char)
    (h1 : ip ≠ []) (h2 : fp ≠ []) (h3 : allDigits ip = true) (h4 : allDigits fp = true) :
    epNumV1 (String.mk (ip ++ '.' :: fp)) = none ∧
    epNumV2 (String.mk (ip ++ '.' :: fp)) = some (digitsToNat ip) := by
  have hdotless : ∀ c ∈ ip, c ≠ '.' := by
    intro c hc heq
    simp only [allDigits, List.all_eq_true] at h3
    have hd := h3 c hc
    rw [heq] at hd
    exact absurd hd (by decide)
  have hipe : ip.isEmpty = false := by
    cases ip with
    | nil => exact absurd rfl h1
    | cons x xs => rfl
  have hnd : allDigits (ip ++ '.' :: fp) = false := by
    simp [allDigits, List.all_append, List.all_cons,
      show isDigitC '.' = false from by decide]
  have hb : breakAtDot (ip ++ '.' :: fp) = some (ip, fp) := breakAtDot_append ip fp hdotless
  have hpf : pyFloatParse (String.mk (ip ++ '.' :: fp))
      = some ((digitsToNat ip : ℚ) + (digitsToNat fp : ℚ) / (10 : ℚ) ^ fp.length) := by
    simp [pyFloatParse, hb, hipe, h3, h4]
  have hfrac0 : (0 : ℚ) ≤ (digitsToNat fp : ℚ) / (10 : ℚ) ^ fp.length :=
    div_nonneg (Nat.cast_nonneg _) (by positivity)
  have hfrac1 : (digitsToNat fp : ℚ) / (10 : ℚ) ^ fp.length < 1 := by
    rw [div_lt_one (by positivity)]
    exact_mod_cast digitsToNat_lt fp h4
  have htr : pyTrunc ((digitsToNat ip : ℚ) + (digitsToNat fp : ℚ) / (10 : ℚ) ^ fp.length)
      = (digitsToNat ip : ℤ) := by
    have hq0 : (0 : ℚ) ≤ (digitsToNat ip : ℚ) + (digitsToNat fp : ℚ) / (10 : ℚ) ^ fp.length := by
      have hn : (0 : ℚ) ≤ (digitsToNat ip : ℚ) := Nat.cast_nonneg _
      linarith
    unfold pyTrunc
    rw [if_pos hq0, add_comm]
    rw [show ((digitsToNat ip : ℚ)) = ((digitsToNat ip : ℤ) : ℚ) from by push_cast; ring,
      Int.floor_add_int]
    rw [Int.floor_eq_zero_iff.mpr ⟨hfrac0, hfrac1⟩]
    ring
  constructor
  · simp [epNumV1, pyIntParse, hnd]
  · simp [epNumV2, hpf, htr]

/-- C6 witness: the amended theorem at `ip = "13"`, `fp = "5"`. -/
theorem fractional_episode_truncation_witness :
    ((['1', '3'] : List Char) ≠ [] ∧ (['5'] : List Char) ≠ [] ∧
      allDigits ['1', '3'] = true ∧ allDigits ['5'] = true) ∧
    (epNumV1 (String.mk (['1', '3'] ++ '.' :: ['5'])) = none ∧
     epNumV2 (String.mk (['1', '3'] ++ '.' :: ['5'])) = some (digitsToNat ['1', '3'])) :=
  ⟨⟨by decide, by decide, by decide, by decide⟩,
   fractional_episode_truncation ['1', '3'] ['5'] (by decide) (by decide) (by decide) (by decide)⟩

/-- C8 counterexample: the current variant's `_download_file` streams
straight into `output_path`.  With previous content `[9]` on disk, stream
`[1, 2]` and an exception after one chunk, the trace passes through a
state where `output_path` holds the partial content `[1]`, and the final
state has `output_path` deleted — the previous content does not survive
the failure, and no temporary sibling was ever used. -/
theorem download_file_v1_cex :
    ({ target := some [1], temp := none } : FS)
        ∈ v1Trace { target := some [9], temp := none } [1, 2] (some 1) ∧
    finalFS { target := some [9], temp := none }
        (v1Trace { target := some [9], temp := none } [1, 2] (some 1))
      = { target := none, temp := none } ∧
    v1Result (some 1) = false := by decide

/-- C8 amended: the v2 variant's `_download_file` behaves as the claim
states — every intermediate state leaves `output_path` at its initial
content or at the complete download, the temporary `.part` sibling is gone
at the end, and the final `output_path` is the initial content on failure
and the complete download on success. -/
theorem download_file_v2_atomic (fs : FS) (chunks : List Nat) (failAfter : Option Nat) :
    (∀ st ∈ v2Trace fs chunks failAfter, st.target = fs.target ∨ st.target = some chunks) ∧
    (finalFS fs (v2Trace fs chunks failAfter)).temp = none ∧
    (finalFS fs (v2Trace fs chunks failAfter)).target
      = (if failAfter.isSome then fs.target else some chunks) := by
  cases failAfter with
  | none =>
    refine ⟨?_, ?_, ?_⟩
    · intro st hst
      simp only [v2Trace, List.mem_append, List.mem_cons, List.mem_map,
        List.mem_range] at hst
      rcases hst with (rfl | ⟨i, _, rfl⟩) | rfl | hnil
      · simp
      · simp
      · simp
      · simp at hnil
    · simp only [finalFS, v2Trace]
      rw [List.getLastD_concat]
    · simp only [finalFS, v2Trace]
      rw [List.getLastD_concat]
      simp
  | some k =>
    refine ⟨?_, ?_, ?_⟩
    · intro st hst
      simp only [v2Trace, List.mem_append, List.mem_cons, List.mem_map,
        List.mem_range] at hst
      rcases hst with (rfl | ⟨i, _, rfl⟩) | rfl | hnil
      · simp
      · simp
      · simp
      · simp at hnil
    · simp only [finalFS, v2Trace]
      rw [List.getLastD_concat]
    · simp only [finalFS, v2Trace]
      rw [List.getLastD_concat]
      simp

/-- C9 counterexample: a directory holding exactly the already-completed
target video and no `.crdownload` marker.  The claim says re-running
detection returns success; the current variant's scan excludes the target
from the rename candidates, finds none, and polls until timeout,
returning failure (it does rename and delete nothing). -/
theorem wait_complete_not_idempotent_cex :
    waitCompleteV1 [{ name := "Show - Episode 1.mp4", mtime := 100, size := 1048576 }]
        "Show - Episode 1.mp4" = (false, none) ∧
    isVideoF { name := "Show - Episode 1.mp4", mtime := 100, size := 1048576 } = true ∧
    isCrdownloadF { name := "Show - Episode 1.mp4", mtime := 100, size := 1048576 } = false := by
  decide

/-- Helper for C9: the fold modelling Python's stable descending sort
returns an element of the scanned list. -/
theorem newestFirst_mem (b : FileEntry) (l : List FileEntry) : newestFirst b l ∈ b :: l := by
  induction l generalizing b with
  | nil => simp [newestFirst]
  | cons f fs ih =>
    simp only [newestFirst]
    split
    · have := ih f
      simp only [List.mem_cons] at this ⊢
      tauto
    · have := ih b
      simp only [List.mem_cons] at this ⊢
      tauto

/-- Helper for C9: the fold returns a file of maximal modification time. -/
theorem newestFirst_max (b : FileEntry) (l : List FileEntry) :
    ∀ x ∈ b :: l, x.mtime ≤ (newestFirst b l).mtime := by
  induction l generalizing b with
  | nil => simp [newestFirst]
  | cons f fs ih =>
    intro x hx
    simp only [List.mem_cons] at hx
    simp only [newestFirst]
    split
    · next hbf =>
      have hf := ih f f (List.mem_cons_self f fs)
      rcases hx with rfl | rfl | hx
      · exact le_trans (le_of_lt hbf) hf
      · exact hf
      · exact ih f x (List.mem_cons_of_mem f hx)
    · next hbf =>
      push_neg at hbf
      have hb := ih b b (List.mem_cons_self b fs)
      rcases hx with rfl | rfl | hx
      · exact hb
      · exact le_trans hbf hb
      · exact ih b x (List.mem_cons_of_mem b hx)

/-- C9 amended: over an unchanging directory with no in-progress marker,
the current variant's `_wait_for_download_complete` succeeds exactly when
a candidate video other than the target is present; it then renames a
candidate that excludes the target filename and has maximal modification
time among the candidates.  (When the target itself is the only completed
video, no candidate exists and the call runs to its timeout and returns
failure — it does not return success as the claim stated.) -/
theorem wait_complete_selection (files : List FileEntry) (target : String)
    (hcr : files.any isCrdownloadF = false) (hne : candidatesV1 files target ≠ []) :
    ∃ g, selectNewestV1 files target = some g ∧
      waitCompleteV1 files target = (true, some g.name) ∧
      g ∈ candidatesV1 files target ∧ g.name ≠ target ∧
      ∀ c ∈ candidatesV1 files target, c.mtime ≤ g.mtime := by
  obtain ⟨c, cs, hcands⟩ := List.exists_cons_of_ne_nil hne
  have hvne : (files.filter isVideoF).isEmpty = false := by
    cases hvf : files.filter isVideoF with
    | nil =>
      exfalso
      apply hne
      simp [candidatesV1, hvf]
    | cons y ys => rfl
  have hsel : selectNewestV1 files target = some (newestFirst c cs) := by
    rw [selectNewestV1, hvne]
    simp only [Bool.false_eq_true, if_false]
    rw [hcands]
  refine ⟨newestFirst c cs, hsel, ?_, ?_, ?_, ?_⟩
  · rw [waitCompleteV1, hcr]
    simp only [Bool.false_eq_true, if_false]
    rw [hsel]
  · rw [hcands]
    exact newestFirst_mem c cs
  · have hmem : newestFirst c cs ∈ candidatesV1 files target := by
      rw [hcands]
      exact newestFirst_mem c cs
    have := List.of_mem_filter hmem
    simpa [bne_iff_ne] using this
  · intro x hx
    rw [hcands] at hx
    exact newestFirst_max c cs x hx

/-- C9 witness: three videos in the directory, one being the target; the
newest non-target candidate (`b.mkv`, mtime 90) is selected. -/
theorem wait_complete_selection_witness :
    ([{ name := "t.mp4", mtime := 100, size := 5 },
      { name := "a.mp4", mtime := 50, size := 5 },
      { name := "b.mkv", mtime := 90, size := 5 }].any isCrdownloadF = false ∧
     candidatesV1 [{ name := "t.mp4", mtime := 100, size := 5 },
      { name := "a.mp4", mtime := 50, size := 5 },
      { name := "b.mkv", mtime := 90, size := 5 }] "t.mp4" ≠ []) ∧
    (∃ g, selectNewestV1 [{ name := "t.mp4", mtime := 100, size := 5 },
        { name := "a.mp4", mtime := 50, size := 5 },
        { name := "b.mkv", mtime := 90, size := 5 }] "t.mp4" = some g ∧
      waitCompleteV1 [{ name := "t.mp4", mtime := 100, size := 5 },
        { name := "a.mp4", mtime := 50, size := 5 },
        { name := "b.mkv", mtime := 90, size := 5 }] "t.mp4" = (true, some g.name) ∧
      g ∈ candidatesV1 [{ name := "t.mp4", mtime := 100, size := 5 },
        { name := "a.mp4", mtime := 50, size := 5 },
        { name := "b.mkv", mtime := 90, size := 5 }] "t.mp4" ∧
      g.name ≠ "t.mp4" ∧
      ∀ c ∈ candidatesV1 [{ name := "t.mp4", mtime := 100, size := 5 },
        { name := "a.mp4", mtime := 50, size := 5 },
        { name := "b.mkv", mtime := 90, size := 5 }] "t.mp4", c.mtime ≤ g.mtime) :=
  ⟨⟨by decide, by decide⟩, wait_complete_selection _ _ (by decide) (by decide)⟩

/-- Helper for C1/C2: splitting a list at the first occurrence of a
member. -/
theorem firstSplit {α : Type} [DecidableEq α] (x : α) (l : List α) (h : x ∈ l) :
    ∃ l₁ l₂, l = l₁ ++ x :: l₂ ∧ x ∉ l₁ := by
  induction l with
  | nil => cases h
  | cons a as ih =>
    by_cases hax : a = x
    · exact ⟨[], as, by simp [hax], by simp⟩
    · have hmem : x ∈ as := by
        rcases List.mem_cons.mp h with rfl | hm
        · exact absurd rfl hax
        · exact hm
      obtain ⟨l₁, l₂, heq, hnx⟩ := ih hmem
      refine ⟨a :: l₁, l₂, by simp [heq], ?_⟩
      simp only [List.mem_cons, not_or]
      exact ⟨fun hh => hax hh.symm, hnx⟩

/-- Helper for C1/C2: Python's `min(..., key=dist)` starting from best `b`
returns the first element of `b :: l` attaining the minimal distance:
everything before it is strictly farther from `q`, everything after it at
least as far. -/
theorem closestFrom_spec (q : Nat) (l : List Nat) :
    ∀ b : Nat, ∃ l₁ l₂, b :: l = l₁ ++ closestFrom q b l :: l₂ ∧
      (∀ x ∈ l₁, resDist (closestFrom q b l) q < resDist x q) ∧
      (∀ x ∈ l₂, resDist (closestFrom q b l) q ≤ resDist x q) := by
  induction l with
  | nil =>
    intro b
    exact ⟨[], [], by simp [closestFrom], by simp, by simp⟩
  | cons r rs ih =>
    intro b
    by_cases hd : resDist r q < resDist b q
    · simp only [closestFrom, if_pos hd]
      obtain ⟨m₁, m₂, heq, hs₁, hs₂⟩ := ih r
      have hcr : resDist (closestFrom q r rs) q ≤ resDist r q := by
        cases m₁ with
        | nil =>
          have : r = closestFrom q r rs := by simpa using congrArg (List.headD · r) heq
          rw [← this]
        | cons a m' =>
          have ha : r = a := by simpa using congrArg (List.headD · r) heq
          have hm : resDist (closestFrom q r rs) q < resDist a q :=
            hs₁ a (List.mem_cons_self a m')
          rw [← ha] at hm
          exact le_of_lt hm
        -- in the nil case the head is the result itself; in the cons case
        -- the old best `r` sits in the strictly-farther prefix
      refine ⟨b :: m₁, m₂, by rw [List.cons_append, ← heq], ?_, hs₂⟩
      intro x hx
      rcases List.mem_cons.mp hx with rfl | hx'
      · exact lt_of_le_of_lt hcr hd
      · exact hs₁ x hx'
    · simp only [closestFrom, if_neg hd]
      push_neg at hd
      obtain ⟨m₁, m₂, heq, hs₁, hs₂⟩ := ih b
      cases m₁ with
      | nil =>
        have hb : b = closestFrom q b rs := by simpa using congrArg (List.headD · b) heq
        have hm₂ : rs = m₂ := by simpa [← hb] using congrArg List.tail heq
        refine ⟨[], r :: rs, by simp [← hb], by simp, ?_⟩
        intro x hx
        rcases List.mem_cons.mp hx with rfl | hx'
        · rw [← hb]; exact hd
        · rw [hm₂] at hx'; exact hs₂ x hx'
      | cons a m' =>
        have ha : b = a := by simpa using congrArg (List.headD · b) heq
        subst ha
        have hrs : rs = m' ++ closestFrom q b rs :: m₂ := by
          simpa using congrArg List.tail heq
        have hcb : resDist (closestFrom q b rs) q < resDist b q :=
          hs₁ b (List.mem_cons_self b m')
        refine ⟨b :: r :: m', m₂, by rw [List.cons_append, List.cons_append, ← hrs], ?_, hs₂⟩
        intro x hx
        rcases List.mem_cons.mp hx with rfl | hx'
        · exact hcb
        · rcases List.mem_cons.mp hx' with rfl | hx''
          · exact lt_of_lt_of_le hcb hd
          · exact hs₁ x (List.mem_cons_of_mem b hx'')

/-- Helper for C1/C2: `resDist x q = 0` exactly at `x = q`. -/
theorem resDist_eq_zero (x q : Nat) : resDist x q = 0 ↔ x = q := by
  simp [resDist, sub_eq_zero]

/-- Helper for C1/C2: the exact-match-or-closest rule of
`_extract_download_links` picks the first minimizer of `|r - q|` in
encounter order: membership, global minimality, and ties resolved to the
earlier option. -/
theorem pickRes_spec (q : Nat) (rs : List Nat) (h : rs ≠ []) :
    ∃ r l₁ l₂, pickRes q rs = some r ∧ rs = l₁ ++ r :: l₂ ∧
      (∀ x ∈ l₁, resDist r q < resDist x q) ∧
      (∀ x ∈ l₂, resDist r q ≤ resDist x q) := by
  by_cases hq : q ∈ rs
  · obtain ⟨l₁, l₂, heq, hn⟩ := firstSplit q rs hq
    refine ⟨q, l₁, l₂, by simp [pickRes, hq], heq, ?_, ?_⟩
    · intro x hx
      have hxq : x ≠ q := fun hh => hn (hh ▸ hx)
      have : resDist x q ≠ 0 := fun hz => hxq ((resDist_eq_zero x q).mp hz)
      have hq0 : resDist q q = 0 := (resDist_eq_zero q q).mpr rfl
      omega
    · intro x _
      have hq0 : resDist q q = 0 := (resDist_eq_zero q q).mpr rfl
      omega
  · cases rs with
    | nil => exact absurd rfl h
    | cons r₀ rest =>
      obtain ⟨l₁, l₂, heq, hs₁, hs₂⟩ := closestFrom_spec q rest r₀
      exact ⟨closestFrom q r₀ rest, l₁, l₂, by simp [pickRes, hq, closestRes], heq, hs₁, hs₂⟩

/-- C1 counterexample: the v2 variant at requested quality 900 with the
menu listing 1080p before 720p.  Both resolutions are at distance 180, the
first encountered is 1080 (as `closestRes` over the encounter order
confirms), but `sorted(...)` reorders the keys ascending and the selection
returns 720 — the tie is not resolved to the first-encountered option. -/
theorem quality_selection_tie_cex :
    selectResV2 900 [(1080, "a"), (720, "b")] = some 720 ∧
    v2keys [(1080, "a"), (720, "b")] = [1080, 720] ∧
    resDist 1080 900 = resDist 720 900 ∧
    closestRes 900 (v2keys [(1080, "a"), (720, "b")]) = some 1080 := by
  decide

/-- C1 amended: in the current variant the selected resolution is in the
chosen variant's resolution set `R`, minimizes `|r − Q|` over `R`, and
ties resolve to the first-encountered option (the split witnesses this:
everything before the selection is strictly farther, everything after at
least as far).  In the v2 variant the selected resolution is in `R` and
minimizes `|r − Q|`, but a tie resolves to the smaller resolution because
the keys are sorted ascending before `min`. -/
theorem quality_selection_rule (q : Nat) (pd : Bool) (links : List DLink)
    (ls : List (Nat × String))
    (h1 : chosenResList pd links ≠ []) (h2 : v2keys ls ≠ []) :
    (∃ r l₁ l₂, selectKeyMain q pd links = some (r, chosenDub pd links) ∧
      chosenResList pd links = l₁ ++ r :: l₂ ∧
      (∀ x ∈ l₁, resDist r q < resDist x q) ∧
      (∀ x ∈ l₂, resDist r q ≤ resDist x q)) ∧
    (∃ r, selectResV2 q ls = some r ∧ r ∈ v2keys ls ∧
      (∀ x ∈ v2keys ls, resDist r q ≤ resDist x q) ∧
      (∀ x ∈ v2keys ls, resDist x q = resDist r q → r ≤ x)) := by
  constructor
  · by_cases hv : variantRes links pd = []
    · have hlist : chosenResList pd links = variantRes links (!pd) := by
        simp [chosenResList, chosenDub, hv]
      have hfb : variantRes links (!pd) ≠ [] := by rw [← hlist]; exact h1
      obtain ⟨r, l₁, l₂, hpick, heq, hs₁, hs₂⟩ := pickRes_spec q _ hfb
      refine ⟨r, l₁, l₂, ?_, by rw [hlist, heq], hs₁, hs₂⟩
      simp [selectKeyMain, chosenDub, hv, hfb, hpick]
    · have hlist : chosenResList pd links = variantRes links pd := by
        simp [chosenResList, chosenDub, hv]
      obtain ⟨r, l₁, l₂, hpick, heq, hs₁, hs₂⟩ := pickRes_spec q _ hv
      refine ⟨r, l₁, l₂, ?_, by rw [hlist, heq], hs₁, hs₂⟩
      simp [selectKeyMain, chosenDub, hv, hpick]
  · by_cases hq : q ∈ v2keys ls
    · refine ⟨q, by simp [selectResV2, h2, hq], hq, ?_, ?_⟩
      · intro x _
        have hq0 : resDist q q = 0 := (resDist_eq_zero q q).mpr rfl
        omega
      · intro x _ hx
        have hq0 : resDist q q = 0 := (resDist_eq_zero q q).mpr rfl
        rw [hq0] at hx
        rw [(resDist_eq_zero x q).mp hx]
    · have hperm : List.Perm (List.insertionSort (· ≤ ·) (v2keys ls)) (v2keys ls) :=
        List.perm_insertionSort _ _
      have hsne : List.insertionSort (· ≤ ·) (v2keys ls) ≠ [] := by
        intro hnil
        exact h2 (List.Perm.nil_eq (hnil ▸ hperm)).symm
      obtain ⟨s₀, srest, hs⟩ := List.exists_cons_of_ne_nil hsne
      obtain ⟨l₁, l₂, heq, hs₁, hs₂⟩ := closestFrom_spec q srest s₀
      have hsorted : List.Sorted (· ≤ ·) (List.insertionSort (· ≤ ·) (v2keys ls)) :=
        List.sorted_insertionSort _ _
      set c := closestFrom q s₀ srest with hc
      have hsel : selectResV2 q ls = some c := by
        simp [selectResV2, h2, hq, hs, closestRes]
      have hmemsort : c ∈ List.insertionSort (· ≤ ·) (v2keys ls) := by
        rw [hs, heq]
        exact List.mem_append_right _ (List.mem_cons_self c l₂)
      have hmemkeys : c ∈ v2keys ls := hperm.mem_iff.mp hmemsort
      refine ⟨c, hsel, hmemkeys, ?_, ?_⟩
      · intro x hx
        have hxs : x ∈ List.insertionSort (· ≤ ·) (v2keys ls) := hperm.mem_iff.mpr hx
        rw [hs, heq] at hxs
        rcases List.mem_append.mp hxs with hx1 | hx2
        · exact le_of_lt (hs₁ x hx1)
        · rcases List.mem_cons.mp hx2 with rfl | hx3
          · exact le_rfl
          · exact hs₂ x hx3
      · intro x hx htie
        have hxs : x ∈ List.insertionSort (· ≤ ·) (v2keys ls) := hperm.mem_iff.mpr hx
        rw [hs, heq] at hxs
        rw [hs, heq] at hsorted
        rcases List.mem_append.mp hxs with hx1 | hx2
        · exact absurd htie (by have := hs₁ x hx1; omega)
        · rcases List.mem_cons.mp hx2 with rfl | hx3
          · exact le_rfl
          · have hpair := (List.pairwise_append.mp hsorted).2.1
            exact (List.pairwise_cons.mp hpair).1 x hx3

/-- C1 witness: the amended theorem at `Q = 900`, subbed preference, with
the menu listing subbed 1080p then 720p in both variants. -/
theorem quality_selection_rule_witness :
    (chosenResList false [⟨1080, false, "u"⟩, ⟨720, false, "v"⟩] ≠ [] ∧
     v2keys [(1080, "a"), (720, "b")] ≠ []) ∧
    ((∃ r l₁ l₂,
        selectKeyMain 900 false [⟨1080, false, "u"⟩, ⟨720, false, "v"⟩]
          = some (r, chosenDub false [⟨1080, false, "u"⟩, ⟨720, false, "v"⟩]) ∧
        chosenResList false [⟨1080, false, "u"⟩, ⟨720, false, "v"⟩] = l₁ ++ r :: l₂ ∧
        (∀ x ∈ l₁, resDist r 900 < resDist x 900) ∧
        (∀ x ∈ l₂, resDist r 900 ≤ resDist x 900)) ∧
     (∃ r, selectResV2 900 [(1080, "a"), (720, "b")] = some r ∧
        r ∈ v2keys [(1080, "a"), (720, "b")] ∧
        (∀ x ∈ v2keys [(1080, "a"), (720, "b")], resDist r 900 ≤ resDist x 900) ∧
        (∀ x ∈ v2keys [(1080, "a"), (720, "b")], resDist x 900 = resDist r 900 → r ≤ x))) :=
  ⟨⟨by decide, by decide⟩,
   quality_selection_rule 900 false [⟨1080, false, "u"⟩, ⟨720, false, "v"⟩]
     [(1080, "a"), (720, "b")] (by decide) (by decide)⟩

/-- C2: when the preferred audio variant has no parsed option,
`_extract_download_links` falls back to the other variant and applies the
same closest-resolution rule there; when neither variant has an option it
returns the failure value (`none`). -/
theorem audio_fallback (q : Nat) (pd : Bool) (links : List DLink)
    (h : variantRes links pd = []) :
    (variantRes links (!pd) = [] → selectKeyMain q pd links = none) ∧
    (variantRes links (!pd) ≠ [] →
      ∃ r l₁ l₂, selectKeyMain q pd links = some (r, !pd) ∧
        variantRes links (!pd) = l₁ ++ r :: l₂ ∧
        (∀ x ∈ l₁, resDist r q < resDist x q) ∧
        (∀ x ∈ l₂, resDist r q ≤ resDist x q)) := by
  constructor
  · intro h2
    simp [selectKeyMain, h, h2]
  · intro h2
    obtain ⟨r, l₁, l₂, hpick, heq, hs₁, hs₂⟩ := pickRes_spec q _ h2
    refine ⟨r, l₁, l₂, ?_, heq, hs₁, hs₂⟩
    simp [selectKeyMain, h, h2, hpick]

/-- C2 witness: preference subbed, only a dubbed 720p option on the page;
the fallback selects it. -/
theorem audio_fallback_witness :
    variantRes [⟨720, true, "w"⟩] false = [] ∧
    ((variantRes [⟨720, true, "w"⟩] (!false) = []
        → selectKeyMain 1080 false [⟨720, true, "w"⟩] = none) ∧
     (variantRes [⟨720, true, "w"⟩] (!false) ≠ [] →
       ∃ r l₁ l₂, selectKeyMain 1080 false [⟨720, true, "w"⟩] = some (r, !false) ∧
         variantRes [⟨720, true, "w"⟩] (!false) = l₁ ++ r :: l₂ ∧
         (∀ x ∈ l₁, resDist r 1080 < resDist x 1080) ∧
         (∀ x ∈ l₂, resDist r 1080 ≤ resDist x 1080))) :=
  ⟨by decide, audio_fallback 1080 false [⟨720, true, "w"⟩] (by decide)⟩

/-- Helper for C3: `min` distributes over adding a nonnegative amount. -/
theorem min_add_le_right (a b d : ℚ) (hd : 0 ≤ d) : min a (b + d) ≤ min a b + d := by
  rcases le_total a b with h | h
  · rw [min_eq_left (by linarith : a ≤ b + d), min_eq_left h]
    linarith
  · rw [min_eq_right h]
    exact le_trans (min_le_right _ _) (by linarith)

/-- Helper for C3: the window budget is never negative. -/
theorem windowBudget_nonneg (cap rate w T : ℚ) (hcap : 1 ≤ cap) (hrate : 0 < rate)
    (hT : 0 ≤ T) (s : ThrottleState) (h0 : 0 ≤ s.tokens) :
    0 ≤ windowBudget cap rate w T s := by
  unfold windowBudget
  split
  · exact le_rfl
  · next hns =>
    push_neg at hns
    have hm1 : s.last ≤ max s.last w := le_max_left _ _
    have hm2 : max s.last w ≤ w + T := max_le hns (by linarith)
    have e1 : 0 ≤ rate * (max s.last w - s.last) := mul_nonneg hrate.le (by linarith)
    have e2 : 0 ≤ rate * (w + T - max s.last w) := mul_nonneg hrate.le (by linarith)
    have e3 : 0 ≤ min cap (s.tokens + rate * (max s.last w - s.last)) :=
      le_min (by linarith) (by linarith)
    linarith

/-- Helper for C3: the bucket never goes negative. -/
theorem wait_tokens_nonneg (cap rate : ℚ) (s : ThrottleState) (a slack : ℚ) :
    0 ≤ (wait_for_token cap rate s a slack).tokens := by
  unfold wait_for_token
  split
  · exact le_rfl
  · next h =>
    push_neg at h
    dsimp only
    linarith

/-- Helper for C3: the bucket never exceeds the burst capacity. -/
theorem wait_tokens_le (cap rate : ℚ) (hcap : 1 ≤ cap) (s : ThrottleState) (a slack : ℚ) :
    (wait_for_token cap rate s a slack).tokens ≤ cap := by
  unfold wait_for_token
  split
  · dsimp only
    linarith
  · dsimp only
    have := min_le_left cap (s.tokens + (a - s.last) * rate)
    linarith

/-- Helper for C3: counting admissions in the window, one call at a time. -/
theorem countWin_cons (w T x : ℚ) (l : List ℚ) :
    countWin w T (x :: l) = countWin w T l + (if w ≤ x ∧ x ≤ w + T then 1 else 0) := by
  simp [countWin, List.countP_cons]

/-- Helper for C3, the key step: one `wait_for_token` call pays for its
own admission out of the window budget — the possible in-window admission
plus the budget of the successor state never exceeds the budget of the
current state. -/
theorem budget_step (cap rate w T : ℚ) (hcap : 1 ≤ cap) (hrate : 0 < rate) (hT : 0 ≤ T)
    (s : ThrottleState) (a slack : ℚ) (h0 : 0 ≤ s.tokens) (h1 : s.tokens ≤ cap)
    (ha : s.last ≤ a) (hsl : 0 ≤ slack) :
    (if w ≤ (wait_for_token cap rate s a slack).last ∧
        (wait_for_token cap rate s a slack).last ≤ w + T then (1 : ℚ) else 0)
      + windowBudget cap rate w T (wait_for_token cap rate s a slack)
      ≤ windowBudget cap rate w T s := by
  by_cases htl : min cap (s.tokens + (a - s.last) * rate) < 1
  · -- the call sleeps: the refilled bucket held less than one token
    have hXc : s.tokens + (a - s.last) * rate ≤ cap := by
      by_contra hcon
      push_neg at hcon
      rw [min_eq_left hcon.le] at htl
      linarith
    have hmX : min cap (s.tokens + (a - s.last) * rate) = s.tokens + (a - s.last) * rate :=
      min_eq_right hXc
    have hX1 : s.tokens + (a - s.last) * rate < 1 := by rw [← hmX]; exact htl
    unfold wait_for_token
    rw [if_pos htl]
    dsimp only
    rw [hmX]
    set L := a + (1 - (s.tokens + (a - s.last) * rate)) / rate + slack with hLdef
    have hrL : rate * L = rate * a + (1 - (s.tokens + (a - s.last) * rate)) + rate * slack := by
      rw [hLdef]
      field_simp
      ring
    have hrsl : 0 ≤ rate * slack := mul_nonneg hrate.le hsl
    have haL : a ≤ L := by
      have hdp : 0 < (1 - (s.tokens + (a - s.last) * rate)) / rate :=
        div_pos (by linarith) hrate
      rw [hLdef]
      linarith
    have hsL : s.last ≤ L := le_trans ha haL
    rcases lt_or_le (w + T) L with hc1 | hc2
    · have hB : windowBudget cap rate w T ⟨0, L⟩ = 0 := by
        unfold windowBudget
        dsimp only
        rw [if_pos hc1]
      rw [hB]
      rw [if_neg (by rintro ⟨_, hh⟩; linarith), add_zero]
      exact windowBudget_nonneg cap rate w T hcap hrate hT s h0
    · have hB : windowBudget cap rate w T ⟨0, L⟩
          = min cap (0 + rate * (max L w - L)) + rate * (w + T - max L w) := by
        unfold windowBudget
        dsimp only
        rw [if_neg (not_lt.mpr hc2)]
      have hBs : windowBudget cap rate w T s
          = min cap (s.tokens + rate * (max s.last w - s.last))
            + rate * (w + T - max s.last w) := by
        unfold windowBudget
        rw [if_neg (not_lt.mpr (by linarith : s.last ≤ w + T))]
      rw [hB, hBs]
      rcases lt_or_le L w with hc3 | hc4
      · rw [if_neg (by rintro ⟨hh, _⟩; linarith), zero_add]
        rw [max_eq_right hc3.le, max_eq_right (by linarith : s.last ≤ w)]
        have harg : 0 + rate * (w - L) ≤ s.tokens + rate * (w - s.last) := by
          nlinarith [hrL, hrsl]
        exact add_le_add_right (min_le_min (le_refl cap) harg) _
      · rw [if_pos ⟨hc4, hc2⟩]
        rw [max_eq_left hc4]
        have hz : (0 : ℚ) + rate * (L - L) = 0 := by ring
        rw [hz, min_eq_right (by linarith : (0 : ℚ) ≤ cap)]
        rcases le_total s.last w with hsw | hws
        · rw [max_eq_right hsw]
          rcases le_total cap (s.tokens + rate * (w - s.last)) with hcY | hYc
          · rw [min_eq_left hcY]
            have hlw : 0 ≤ rate * (L - w) := mul_nonneg hrate.le (by linarith)
            nlinarith [hlw]
          · rw [min_eq_right hYc]
            nlinarith [hrL, hrsl]
        · rw [max_eq_left hws]
          have hz2 : s.tokens + rate * (s.last - s.last) = s.tokens := by ring
          rw [hz2, min_eq_right h1]
          nlinarith [hrL, hrsl]
  · -- the call consumes a token immediately
    unfold wait_for_token
    rw [if_neg htl]
    dsimp only
    push_neg at htl
    have htc : min cap (s.tokens + (a - s.last) * rate) ≤ cap := min_le_left _ _
    have htX : min cap (s.tokens + (a - s.last) * rate) ≤ s.tokens + (a - s.last) * rate :=
      min_le_right _ _
    set t := min cap (s.tokens + (a - s.last) * rate) with ht
    rcases lt_or_le (w + T) a with hc1 | hc2
    · have hB : windowBudget cap rate w T ⟨t - 1, a⟩ = 0 := by
        unfold windowBudget
        dsimp only
        rw [if_pos hc1]
      rw [hB]
      rw [if_neg (by rintro ⟨_, hh⟩; linarith), add_zero]
      exact windowBudget_nonneg cap rate w T hcap hrate hT s h0
    · have hB : windowBudget cap rate w T ⟨t - 1, a⟩
          = min cap (t - 1 + rate * (max a w - a)) + rate * (w + T - max a w) := by
        unfold windowBudget
        dsimp only
        rw [if_neg (not_lt.mpr hc2)]
      have hBs : windowBudget cap rate w T s
          = min cap (s.tokens + rate * (max s.last w - s.last))
            + rate * (w + T - max s.last w) := by
        unfold windowBudget
        rw [if_neg (not_lt.mpr (by linarith : s.last ≤ w + T))]
      rw [hB, hBs]
      rcases lt_or_le a w with hc3 | hc4
      · rw [if_neg (by rintro ⟨hh, _⟩; linarith), zero_add]
        rw [max_eq_right hc3.le, max_eq_right (by linarith : s.last ≤ w)]
        have harg : t - 1 + rate * (w - a) ≤ s.tokens + rate * (w - s.last) := by
          nlinarith [htX]
        exact add_le_add_right (min_le_min (le_refl cap) harg) _
      · rw [if_pos ⟨hc4, hc2⟩]
        rw [max_eq_left hc4]
        have hz : t - 1 + rate * (a - a) = t - 1 := by ring
        rw [hz]
        rcases le_total s.last w with hsw | hws
        · rw [max_eq_right hsw]
          have hky : s.tokens + (a - s.last) * rate
              = (s.tokens + rate * (w - s.last)) + rate * (a - w) := by ring
          have hd : 0 ≤ rate * (a - w) := mul_nonneg hrate.le (by linarith)
          have hmin1 : min cap (t - 1) ≤ t - 1 := min_le_right _ _
          have hmin2 : t ≤ min cap (s.tokens + rate * (w - s.last)) + rate * (a - w) := by
            have hstep : min cap ((s.tokens + rate * (w - s.last)) + rate * (a - w))
                ≤ min cap (s.tokens + rate * (w - s.last)) + rate * (a - w) :=
              min_add_le_right _ _ _ hd
            rw [ht, hky]
            exact hstep
          linarith [hmin1, hmin2]
        · rw [max_eq_left hws]
          have hz2 : s.tokens + rate * (s.last - s.last) = s.tokens := by ring
          rw [hz2, min_eq_right h1]
          have hmin1 : min cap (t - 1) ≤ t - 1 := min_le_right _ _
          linarith [hmin1, htX]

/-- Helper for C3: along any valid call sequence, the number of in-window
admissions is bounded by the starting state's window budget. -/
theorem countWin_le_budget (cap rate w T : ℚ) (hcap : 1 ≤ cap) (hrate : 0 < rate)
    (hT : 0 ≤ T) :
    ∀ (l : List (ℚ × ℚ)) (s : ThrottleState), 0 ≤ s.tokens → s.tokens ≤ cap →
      validCalls cap rate s l = true →
      (countWin w T (runThrottle cap rate s l) : ℚ) ≤ windowBudget cap rate w T s := by
  intro l
  induction l with
  | nil =>
    intro s h0 _ _
    simp only [runThrottle, countWin, List.countP_nil, Nat.cast_zero]
    exact windowBudget_nonneg cap rate w T hcap hrate hT s h0
  | cons c rest ih =>
    intro s h0 h1 hv
    obtain ⟨a, slack⟩ := c
    simp only [validCalls, Bool.and_eq_true, decide_eq_true_eq] at hv
    obtain ⟨⟨hva, hvsl⟩, hvrest⟩ := hv
    have hrec := ih (wait_for_token cap rate s a slack)
      (wait_tokens_nonneg cap rate s a slack) (wait_tokens_le cap rate hcap s a slack) hvrest
    have hstep := budget_step cap rate w T hcap hrate hT s a slack h0 h1 hva hvsl
    have hrun : runThrottle cap rate s ((a, slack) :: rest)
        = (wait_for_token cap rate s a slack).last
          :: runThrottle cap rate (wait_for_token cap rate s a slack) rest := rfl
    rw [hrun, countWin_cons]
    by_cases hin : w ≤ (wait_for_token cap rate s a slack).last ∧
        (wait_for_token cap rate s a slack).last ≤ w + T
    · rw [if_pos hin] at hstep
      rw [if_pos hin]
      push_cast
      linarith
    · rw [if_neg hin] at hstep
      rw [if_neg hin]
      push_cast
      linarith

/-- C3: starting from a fresh `RequestThrottler` (full bucket of
`burst_capacity ≥ 1` tokens, rate `requests_per_minute / 60 > 0`), any
valid sequence of `wait_for_token` calls admits at most
`burst_capacity + T * rate` requests inside any closed time window of
length `T ≥ 0`. -/
theorem throttler_window_bound (cap rpm w T t0 : ℚ) (l : List (ℚ × ℚ))
    (hcap : 1 ≤ cap) (hrpm : 0 < rpm) (hT : 0 ≤ T)
    (hv : validCalls cap (throttleRate rpm) ⟨cap, t0⟩ l = true) :
    (countWin w T (runThrottle cap (throttleRate rpm) ⟨cap, t0⟩ l) : ℚ)
      ≤ cap + T * throttleRate rpm := by
  have hrate : 0 < throttleRate rpm := div_pos hrpm (by norm_num)
  have h := countWin_le_budget cap (throttleRate rpm) w T hcap hrate hT l ⟨cap, t0⟩
    (by linarith) le_rfl hv
  refine le_trans h ?_
  unfold windowBudget
  dsimp only
  split
  · have h2 : 0 ≤ T * throttleRate rpm := mul_nonneg hT hrate.le
    linarith
  · next hns =>
    push_neg at hns
    have hm1 : w ≤ max t0 w := le_max_right _ _
    have hmin : min cap (cap + throttleRate rpm * (max t0 w - t0)) ≤ cap := min_le_left _ _
    have hmul : throttleRate rpm * (w + T - max t0 w) ≤ throttleRate rpm * T :=
      mul_le_mul_of_nonneg_left (by linarith) hrate.le
    have hcomm : T * throttleRate rpm = throttleRate rpm * T := mul_comm _ _
    linarith

/-- C3 witness: burst capacity 3, 60 requests per minute (one token per
second), two back-to-back calls at time 0, window `[0, 2]`. -/
theorem throttler_window_bound_witness :
    (1 ≤ (3 : ℚ) ∧ 0 < (60 : ℚ) ∧ 0 ≤ (2 : ℚ) ∧
      validCalls 3 (throttleRate 60) ⟨3, 0⟩ [(0, 0), (0, 0)] = true) ∧
    (countWin 0 2 (runThrottle 3 (throttleRate 60) ⟨3, 0⟩ [(0, 0), (0, 0)]) : ℚ)
      ≤ 3 + 2 * throttleRate 60 :=
  ⟨⟨by norm_num, by norm_num, by norm_num,
    by norm_num [validCalls, wait_for_token, throttleRate, min_def]⟩,
   throttler_window_bound 3 60 0 2 0 [(0, 0), (0, 0)] (by norm_num) (by norm_num)
     (by norm_num) (by norm_num [validCalls, wait_for_token, throttleRate, min_def])⟩
